import Mathlib

/-!
Verification of the structure-inference engine of the `adobe_india_hackathon`
repository (round1a): a shallow embedding of `heading_detector.py` and
`title_extractor.py` into Lean, followed by theorems settling the frozen
claims about the natural-language specification.

Python strings are modelled as `List Char`, Python floats (font sizes,
bounding-box coordinates) as `ℚ` (the arithmetic performed on them —
comparisons, subtraction of small integers, halving — is exact), Python
integers as `Nat`/`Int`.
-/

namespace PDFOutline

/-- Python strings are modelled as lists of characters. -/
abbrev Str := List Char

/-- Model of Python `max(a, b)` (keeps the first argument on ties).
Defined by an explicit comparison so that it kernel-reduces on concrete
rationals. -/
def pyMax (a b : ℚ) : ℚ := if a < b then b else a

/-- Model of Python `abs` on rationals, by explicit comparison. -/
def pyAbs (q : ℚ) : ℚ := if q < 0 then -q else q

/-- Whitespace set used by Python's `str.split` / `str.strip` / `\s`
(ASCII fragment: space, tab, newline, carriage return, vertical tab,
form feed). -/
def pyIsSpace (c : Char) : Bool :=
  c = ' ' || c = '\t' || c = '\n' || c = '\r' || c.toNat = 11 || c.toNat = 12

/-- Model of Python `str.strip()`: drop leading and trailing whitespace. -/
def pyStrip (s : Str) : Str :=
  ((s.dropWhile pyIsSpace).reverse.dropWhile pyIsSpace).reverse

/-- Model of Python `str.lower()` (ASCII fragment). -/
def pyLower (s : Str) : Str := s.map Char.toLower

/-- Accumulator worker for `pySplit`: `acc` holds the reversed current
word. -/
def splitW (acc : Str) : Str → List Str
  | [] => if acc = [] then [] else [acc.reverse]
  | c :: rest =>
    if pyIsSpace c then
      (if acc = [] then [] else [acc.reverse]) ++ splitW [] rest
    else splitW (c :: acc) rest

/-- Model of Python `str.split()` (split on whitespace runs, no empty
words). -/
def pySplit (s : Str) : List Str := splitW [] s

/-- The maximal non-whitespace run at the head of a string. -/
def takeWord (s : Str) : Str := s.takeWhile (fun d => !pyIsSpace d)

/-- The remainder after the maximal head non-whitespace run. -/
def dropWord (s : Str) : Str := s.dropWhile (fun d => !pyIsSpace d)

/-- Model of Python `' '.join(words)`. -/
def joinW : List Str → Str
  | [] => []
  | [w] => w
  | w :: v :: ws => w ++ ' ' :: joinW (v :: ws)

/-- Model of Python `' '.join(s.split())`: collapse internal whitespace. -/
def collapse (s : Str) : Str := joinW (pySplit s)

/-- First character exists and is whitespace (models the `\s+` tail of the
anchored regexes: `re.match` only needs the match at the start). -/
def hasWS (s : Str) : Bool :=
  match s with
  | c :: _ => pyIsSpace c
  | [] => false

/-- Consume one optional literal `.` (the `\.?` regex piece). -/
def afterOptDot (s : Str) : Str :=
  match s with
  | '.' :: t => t
  | _ => s

/-- Consume one optional `)` or `.` (the `[\)\.]?` regex piece). -/
def afterOptPunct (s : Str) : Str :=
  match s with
  | ')' :: t => t
  | '.' :: t => t
  | _ => s

/-- Model of `re.match(r'^\d+\.?\s+', text)` (greedy matching is
equivalent here: no digit is a dot or whitespace). -/
def matchNumbered (s : Str) : Bool :=
  decide (s.takeWhile Char.isDigit ≠ []) &&
    hasWS (afterOptDot (s.dropWhile Char.isDigit))

/-- Model of `re.match(r'^\d+\.\d+\.?\s+', text)`. -/
def matchSubNumbered (s : Str) : Bool :=
  decide (s.takeWhile Char.isDigit ≠ []) &&
    match s.dropWhile Char.isDigit with
    | '.' :: r2 =>
      decide (r2.takeWhile Char.isDigit ≠ []) &&
        hasWS (afterOptDot (r2.dropWhile Char.isDigit))
    | _ => false

/-- Model of `re.match(r'^\d+\.\d+\.\d+\.?\s+', text)`. -/
def matchSubSubNumbered (s : Str) : Bool :=
  decide (s.takeWhile Char.isDigit ≠ []) &&
    match s.dropWhile Char.isDigit with
    | '.' :: r2 =>
      decide (r2.takeWhile Char.isDigit ≠ []) &&
        match r2.dropWhile Char.isDigit with
        | '.' :: r3 =>
          decide (r3.takeWhile Char.isDigit ≠ []) &&
            hasWS (afterOptDot (r3.dropWhile Char.isDigit))
        | _ => false
    | _ => false

/-- Model of `re.match(r'^[A-Z]\.?\s+', text)`. -/
def matchLettered (s : Str) : Bool :=
  match s with
  | c :: r => c.isUpper && hasWS (afterOptDot r)
  | [] => false

/-- Model of `re.match(r'^[a-z][\)\.]?\s+', text)`. -/
def matchLowerLettered (s : Str) : Bool :=
  match s with
  | c :: r => c.isLower && hasWS (afterOptPunct r)
  | [] => false

/-- Model of Python `str.isupper()` (ASCII fragment): at least one cased
character and no lowercase character. -/
def pyIsUpper (s : Str) : Bool :=
  s.any (fun c => c.isAlpha) && s.all (fun c => !c.isLower)

/-- One step of Python `str.istitle()`: walk the characters tracking
whether the previous character was cased; uppercase may only follow an
uncased character, lowercase only a cased one. -/
def istitleGo : Str → Bool → Bool → Bool
  | [], _, found => found
  | c :: rest, prevCased, found =>
    if c.isUpper then
      if prevCased then false else istitleGo rest true true
    else if c.isLower then
      if prevCased then istitleGo rest true true else false
    else istitleGo rest false found

/-- Model of Python `str.istitle()` (ASCII fragment). -/
def pyIsTitle (s : Str) : Bool := istitleGo s false false

/-- Characters accepted by the `[IVX]+` piece of the roman pattern. -/
def isRomanChar (c : Char) : Bool := c = 'I' || c = 'V' || c = 'X'

/-- Model of `re.match(r'^[IVX]+\.?\s+', text)`. -/
def matchRoman (s : Str) : Bool :=
  decide (s.takeWhile isRomanChar ≠ []) &&
    hasWS (afterOptDot (s.dropWhile isRomanChar))

/-- Lowercased word `w` starts the (lowercased) string and is followed by
whitespace. -/
def startsWordWS (w : Str) (ls : Str) : Bool :=
  w.isPrefixOf ls && hasWS (ls.drop w.length)

/-- Model of `re.match(r'^(Chapter|Section|Part|Appendix)\s+', text,
re.IGNORECASE)`. -/
def matchSectionMarker (s : Str) : Bool :=
  let ls := pyLower s
  startsWordWS "chapter".toList ls || startsWordWS "section".toList ls ||
    startsWordWS "part".toList ls || startsWordWS "appendix".toList ls

/-- The pattern tags produced by `HeadingDetector._check_text_patterns`. -/
inductive Pat where
  | numbered
  | sub_numbered
  | sub_sub_numbered
  | lettered
  | lower_lettered
  | all_caps
  | title_case
  | roman
  | section_marker
deriving DecidableEq, Repr

/-- Model of `HeadingDetector._check_text_patterns`: the list of pattern
tags, appended in source order. -/
def checkTextPatterns (text : Str) : List Pat :=
  (if matchNumbered text then [Pat.numbered] else []) ++
  (if matchSubNumbered text then [Pat.sub_numbered] else []) ++
  (if matchSubSubNumbered text then [Pat.sub_sub_numbered] else []) ++
  (if matchLettered text then [Pat.lettered] else []) ++
  (if matchLowerLettered text then [Pat.lower_lettered] else []) ++
  (if pyIsUpper text ∧ (pySplit text).length ≤ 8 then [Pat.all_caps] else []) ++
  (if pyIsTitle text then [Pat.title_case] else []) ++
  (if matchRoman text then [Pat.roman] else []) ++
  (if matchSectionMarker text then [Pat.section_marker] else [])

/-- Configuration default `Config.MAX_HEADING_LENGTH`. -/
def MAX_HEADING_LENGTH : Nat := 200

/-- Configuration default `Config.MIN_HEADING_SCORE`. -/
def MIN_HEADING_SCORE : Nat := 2

/-- Configuration default `Config.MAX_TITLE_LENGTH`. -/
def MAX_TITLE_LENGTH : Nat := 200

/-- Bounding box `(left, top, right, bottom)` of a text block. -/
structure BBox where
  left : ℚ
  top : ℚ
  right : ℚ
  bottom : ℚ
deriving DecidableEq, Repr

/-- One extracted text block (span): the fields of the block dictionaries
consumed by the detector and the title extractor. -/
structure Block where
  text : Str
  size : ℚ
  flags : Nat
  font : Str
  bbox : BBox
deriving DecidableEq, Repr

/-- One page: the fields of the page dictionaries consumed by the core. -/
structure Page where
  page_number : Nat
  text_blocks : List Block
deriving DecidableEq, Repr

/-- The features record built in `_find_heading_candidates` (note: it
carries no `text` key). -/
structure Features where
  font_size : ℚ
  is_bold : Bool
  is_italic : Bool
  left_margin : ℚ
  top_position : ℚ
  position : ℚ
  patterns : List Pat
deriving DecidableEq, Repr

/-- A heading candidate as built in `_find_heading_candidates`. -/
structure Candidate where
  text : Str
  page : Nat
  score : Nat
  features : Features
deriving DecidableEq, Repr

/-- Heading levels (output alphabet of the classifier). -/
inductive Level where
  | H1
  | H2
  | H3
deriving DecidableEq, Repr

/-- A classified heading entry as built in `_classify_headings`. -/
structure Heading where
  level : Level
  text : Str
  page : Nat
  position : ℚ
deriving DecidableEq, Repr

/-- The score accumulation of `_find_heading_candidates` for one block
(on the stripped text): bold, font size, pattern count, left margin and
length contributions, in source order. -/
def blockScore (block : Block) : Nat :=
  let text := pyStrip block.text
  let is_bold : Bool := block.flags &&& 16 ≠ 0
  let patterns := checkTextPatterns text
  (if is_bold then 2 else 0) +
  (if block.size > 12 then 1 else 0) +
  (if patterns ≠ [] then patterns.length else 0) +
  (if block.bbox.left < 100 then 1 else 0) +
  (if 5 ≤ text.length ∧ text.length ≤ 80 then 1 else 0)

/-- The features record assembled by `_find_heading_candidates` for one
block. -/
def mkFeatures (block : Block) : Features :=
  ⟨block.size, block.flags &&& 16 ≠ 0, block.flags &&& 2 ≠ 0,
   block.bbox.left, block.bbox.top, block.bbox.top,
   checkTextPatterns (pyStrip block.text)⟩

/-- Loop body of `_find_heading_candidates` for one block: the pre-filter,
the score accumulation, and the `MIN_HEADING_SCORE` gate. -/
def candOf (pageNumber : Nat) (block : Block) : Option Candidate :=
  let text := pyStrip block.text
  if text = [] ∨ text.length < 2 then none
  else if text.length > MAX_HEADING_LENGTH then none
  else if blockScore block ≥ MIN_HEADING_SCORE then
    some ⟨text, pageNumber, blockScore block, mkFeatures block⟩
  else none

/-- Model of `HeadingDetector._find_heading_candidates`. -/
def findHeadingCandidates (page : Page) : List Candidate :=
  page.text_blocks.filterMap (candOf page.page_number)

/-- The font tier profile: the three thresholds computed by
`_analyze_font_sizes` (the other dictionary entries — `all_sizes`,
`max_size`, … — are never read by the classifier). -/
structure FontTier where
  h1_threshold : ℚ
  h2_threshold : ℚ
  h3_threshold : ℚ
deriving DecidableEq, Repr

/-- Descending order on the rationals (the `reverse=True` sort order). -/
def descRel (a b : ℚ) : Prop := b ≤ a

instance : DecidableRel descRel :=
  fun a b => inferInstanceAs (Decidable (b ≤ a))

instance : IsTotal ℚ descRel := ⟨fun a b => le_total b a⟩

instance : IsTrans ℚ descRel := ⟨fun _ _ _ hab hbc => le_trans hbc hab⟩

/-- Model of Python `sorted(list(set(xs)), reverse=True)`: the distinct
values sorted descending. -/
def uniqDesc (xs : List ℚ) : List ℚ :=
  List.insertionSort descRel xs.dedup

/-- Threshold derivation of `_analyze_font_sizes` from the descending
list of distinct sizes: top three sizes; or two sizes with `h3 = h2 − 1`;
or a single size (`12` when the list is empty) with the
`max(size − 2, 10)` / `max(size − 4, 8)` clamps. -/
def tierOfUnique (unique_sizes : List ℚ) : FontTier :=
  match unique_sizes with
  | a :: b :: c :: _ => ⟨a, b, c⟩
  | [a, b] => ⟨a, b, b - 1⟩
  | [a] => ⟨a, pyMax (a - 2) 10, pyMax (a - 4) 8⟩
  | [] => ⟨12, pyMax ((12 : ℚ) - 2) 10, pyMax ((12 : ℚ) - 4) 8⟩

/-- Model of `HeadingDetector._analyze_font_sizes` (thresholds part). -/
def analyzeFontSizes (candidates : List Candidate) : FontTier :=
  let font_sizes :=
    (candidates.map (fun c => c.features.font_size)).filter (fun s => 0 < s)
  if font_sizes = [] then ⟨16, 14, 12⟩
  else tierOfUnique (uniqDesc font_sizes)

/-- Model of `HeadingDetector._determine_heading_level`.  The `features`
dictionary built in `_find_heading_candidates` has no `text` key, so the
source's `features.get('text', '')` always evaluates to the empty string;
the embedding makes that explicit as `ftext`. -/
def determineHeadingLevel (fontSize : ℚ) (patterns : List Pat)
    (feats : Features) (h1T h2T h3T : ℚ) : Option Level :=
  let ftext : Str := []
  if patterns.contains Pat.numbered ∧ matchNumbered ftext then some Level.H1
  else if patterns.contains Pat.sub_numbered then some Level.H2
  else if patterns.contains Pat.sub_sub_numbered then some Level.H3
  else if patterns.contains Pat.section_marker then some Level.H1
  else
    let base0 : Option Level :=
      if fontSize ≥ h1T then some Level.H1
      else if fontSize ≥ h2T then some Level.H2
      else if fontSize ≥ h3T then some Level.H3
      else none
    match base0 with
    | none => none
    | some b =>
      let styled : Option Level :=
        if feats.is_bold then some b
        else
          match b with
          | Level.H1 => some Level.H2
          | Level.H2 => some Level.H3
          | Level.H3 => none
      match styled with
      | none => none
      | some b2 =>
        if patterns.contains Pat.all_caps ∧ ftext.length < 50 then
          match b2 with
          | Level.H3 => some Level.H2
          | x => some x
        else some b2

/-- Model of `HeadingDetector._classify_headings`. -/
def classifyHeadings (candidates : List Candidate) (fa : FontTier) :
    List Heading :=
  candidates.filterMap (fun c =>
    match determineHeadingLevel c.features.font_size c.features.patterns
        c.features fa.h1_threshold fa.h2_threshold fa.h3_threshold with
    | some l => some ⟨l, c.text, c.page, c.features.position⟩
    | none => none)

/-- The sort key relation of `detect_headings`: Python's stable sort with
key `(page, position)` orders by this total lexicographic relation. -/
def headingLe (a b : Heading) : Prop :=
  a.page < b.page ∨ (a.page = b.page ∧ a.position ≤ b.position)

instance : DecidableRel headingLe :=
  fun a b => inferInstanceAs
    (Decidable (a.page < b.page ∨ (a.page = b.page ∧ a.position ≤ b.position)))

/-- Model of `HeadingDetector.detect_headings`. -/
def detectHeadings (pages : List Page) : List Heading :=
  let all_candidates := (pages.map findHeadingCandidates).flatten
  if all_candidates = [] then []
  else
    let fa := analyzeFontSizes all_candidates
    List.insertionSort headingLe (classifyHeadings all_candidates fa)

/-- Head of a Python stable sort by a rational key: the earliest element
with minimal key (stable sort preserves original order among equal keys,
so index 0 after sorting is the first-encountered minimum). -/
def topmostBlock (key : Block → ℚ) : List Block → Option Block
  | [] => none
  | b :: bs =>
    some (bs.foldl (fun best y => if key y < key best then y else best) b)

/-- Fold computing the maximum of a nonempty list (models Python `max`). -/
def maxQ (x : ℚ) (xs : List ℚ) : ℚ := xs.foldl pyMax x

/-- Model of `TitleExtractor._find_by_font_size`. -/
def findByFontSize (text_blocks : List Block) : Option Str :=
  if text_blocks = [] then none
  else
    match (text_blocks.filter (fun b => 0 < b.size)).map (fun b => b.size) with
    | [] => none
    | s :: ss =>
      let max_font_size := maxQ s ss
      let largest_blocks :=
        text_blocks.filter (fun b => pyAbs (b.size - max_font_size) < 1 / 10)
      (topmostBlock (fun b => b.bbox.top) largest_blocks).map (fun b => b.text)

/-- Model of `TitleExtractor._find_by_position` (note: the upper-region
test compares the top coordinate against `0.3 × page_width`, width not
height, exactly as the source does). -/
def findByPosition (text_blocks : List Block) : Option Str :=
  if text_blocks = [] then none
  else
    let page_width :=
      match text_blocks.map (fun b => b.bbox.right) with
      | [] => 0
      | r :: rs => maxQ r rs
    let centered_blocks := text_blocks.filter (fun b =>
      let text_width := b.bbox.right - b.bbox.left
      let center_x := b.bbox.left + text_width / 2
      let page_center := page_width / 2
      let center_tolerance := page_width * (2 / 10)
      pyAbs (center_x - page_center) < center_tolerance ∧
        b.bbox.top < page_width * (3 / 10))
    (topmostBlock (fun b => b.bbox.top) centered_blocks).map (fun b => b.text)

/-- Model of the Python substring test `needle in hay`. -/
def isSubstr (needle : Str) : Str → Bool
  | [] => decide (needle = [])
  | c :: rest => List.isPrefixOf needle (c :: rest) || isSubstr needle rest

/-- Bold-family keywords checked against the lowercased font name in
`_find_by_style`. -/
def boldFontName (font : Str) : Bool :=
  let f := pyLower font
  isSubstr "bold".toList f || isSubstr "black".toList f ||
    isSubstr "heavy".toList f || isSubstr "semibold".toList f

/-- Model of `TitleExtractor._find_by_style`. -/
def findByStyle (text_blocks : List Block) : Option Str :=
  let bold_blocks := text_blocks.filter (fun b =>
    ((b.flags &&& 16 ≠ 0) || boldFontName b.font) ∧ b.bbox.top < 200)
  (topmostBlock (fun b => b.bbox.top) bold_blocks).map (fun b => b.text)

/-- Model of `TitleExtractor._find_by_top_position`. -/
def findByTopPosition (text_blocks : List Block) : Option Str :=
  if text_blocks = [] then none
  else
    let font_sizes := text_blocks.map (fun b => b.size)
    let avg_font_size : ℚ :=
      if font_sizes ≠ [] then font_sizes.sum / (font_sizes.length : ℚ)
      else 12
    let top_blocks := text_blocks.filter (fun b =>
      b.bbox.top < 100 ∧ b.size ≥ avg_font_size)
    (topmostBlock (fun b => b.bbox.top) top_blocks).map (fun b => b.text)

/-- Word characters of the `\w` regex class (ASCII fragment). -/
def wordChar (c : Char) : Bool := c.isAlphanum || c = '_'

/-- Model of `re.match(r'^[A-Z][a-z\s]+$', t)`. -/
def matchTitleCaps (s : Str) : Bool :=
  match s with
  | c :: rest =>
    c.isUpper && decide (rest ≠ []) &&
      rest.all (fun d => d.isLower || pyIsSpace d)
  | [] => false

/-- Model of `re.match(r'^[A-Z\s]+$', t)`. -/
def matchAllCapsWS (s : Str) : Bool :=
  decide (s ≠ []) && s.all (fun c => c.isUpper || pyIsSpace c)

/-- Model of `re.match(r'^\w+(\s+\w+)*$', t)`: every character is a word
character or whitespace, and the first and last are word characters. -/
def matchWordSeq (s : Str) : Bool :=
  match s, s.getLast? with
  | c :: _, some d =>
    wordChar c && wordChar d && s.all (fun x => wordChar x || pyIsSpace x)
  | _, _ => false

/-- Model of `re.search(r'^\d+$', t)`. -/
def fullDigits (s : Str) : Bool :=
  decide (s ≠ []) && s.all Char.isDigit

/-- Model of `re.search(r'^word\s+\d+', t)`: the word, then whitespace,
then a digit. -/
def startsWordNum (w : Str) (s : Str) : Bool :=
  w.isPrefixOf s &&
    (let r := s.drop w.length
     decide (r.takeWhile pyIsSpace ≠ []) &&
       match r.dropWhile pyIsSpace with
       | c :: _ => c.isDigit
       | [] => false)

/-- Model of `TitleExtractor._looks_like_title`: any of the three title
patterns returns true immediately; otherwise any avoid pattern (checked
on the lowercased text) returns false; otherwise true. -/
def looksLikeTitle (text : Str) : Bool :=
  let t := pyStrip text
  if matchTitleCaps t || matchAllCapsWS t || matchWordSeq t then true
  else
    let lt := pyLower t
    if fullDigits lt || startsWordNum "page".toList lt ||
        startsWordNum "chapter".toList lt ||
        List.isPrefixOf "www.".toList lt || lt.contains '@' then false
    else true

/-- The four title strategies, in evaluation order. -/
inductive Strategy where
  | font_size
  | position
  | style
  | top
deriving DecidableEq, Repr

/-- Strategy weights of `_select_best_candidate`. -/
def stratWeight : Strategy → Int
  | Strategy.font_size => 3
  | Strategy.position => 2
  | Strategy.style => 2
  | Strategy.top => 1

/-- One step of the scoring dict: `if text not in scores: scores[text] = 0;
scores[text] += w` (Python dicts preserve insertion order, modelled as an
association list appended at the end on first occurrence). -/
def addWeight (m : List (Str × Int)) (t : Str) (w : Int) : List (Str × Int) :=
  if m.any (fun p => p.1 = t) then
    m.map (fun p => if p.1 = t then (p.1, p.2 + w) else p)
  else m ++ [(t, w)]

/-- First loop of `_select_best_candidate`: sum the strategy weights per
distinct text, keys in first-encountered order. -/
def buildScores (cs : List (Strategy × Str)) : List (Str × Int) :=
  cs.foldl (fun m sc => addWeight m sc.2 (stratWeight sc.1)) []

/-- Second loop of `_select_best_candidate`: the per-text adjustments
(length bonus/penalty and the title-likeness bonus). -/
def adjustScore (t : Str) : Int :=
  (let L := (pyStrip t).length
   if 5 ≤ L ∧ L ≤ 100 then 1 else if L > 200 then -2 else 0) +
  (if looksLikeTitle t then 2 else 0)

/-- Scores after both loops of `_select_best_candidate`. -/
def adjustedScores (cs : List (Strategy × Str)) : List (Str × Int) :=
  (buildScores cs).map (fun p => (p.1, p.2 + adjustScore p.1))

/-- One comparison step of Python `max(items, key=value)`: a later item
replaces the current best only when its value is strictly greater. -/
def pickMax (best q : Str × Int) : Str × Int :=
  if best.2 < q.2 then q else best

/-- Python `max(items, key=value)`: the first item whose value is
maximal. -/
def maxFirst : List (Str × Int) → Option Str
  | [] => none
  | p :: rest => some (rest.foldl pickMax p).1

/-- Model of `TitleExtractor._select_best_candidate`. -/
def selectBestCandidate (cs : List (Strategy × Str)) : Option Str :=
  if cs = [] then none else maxFirst (adjustedScores cs)

/-- The sentinel title. -/
def UNTITLED : Str := "Untitled Document".toList

/-- One prefix-stripping step of `_clean_title`: if the lowercased title
starts with the (lowercase) prefix, drop it and strip whitespace. -/
def stripPfx1 (p : Str) (t : Str) : Str :=
  if List.isPrefixOf p (pyLower t) then pyStrip (t.drop p.length) else t

/-- The sequential prefix-stripping loop of `_clean_title` (order:
`title:`, `subject:`, `document:`). -/
def stripPfxs (t : Str) : Str :=
  stripPfx1 "document:".toList
    (stripPfx1 "subject:".toList (stripPfx1 "title:".toList t))

/-- Model of `TitleExtractor._clean_title`. -/
def cleanTitle (title : Str) : Str :=
  if title = [] then UNTITLED
  else
    let t1 := collapse title
    let t2 := stripPfxs t1
    let t3 :=
      if t2.length > MAX_TITLE_LENGTH then
        let tt := pyStrip (t2.take MAX_TITLE_LENGTH)
        if List.isSuffixOf "...".toList tt then tt else tt ++ "...".toList
      else t2
    if t3 = [] then UNTITLED else t3

/-- The candidate list built by `extract_title`: each strategy contributes
its `(strategy, text)` pair when the returned value is truthy (non-`None`
and non-empty). -/
def titleCandidates (text_blocks : List Block) : List (Strategy × Str) :=
  (match findByFontSize text_blocks with
   | some t => if t = [] then [] else [(Strategy.font_size, t)]
   | none => []) ++
  (match findByPosition text_blocks with
   | some t => if t = [] then [] else [(Strategy.position, t)]
   | none => []) ++
  (match findByStyle text_blocks with
   | some t => if t = [] then [] else [(Strategy.style, t)]
   | none => []) ++
  (match findByTopPosition text_blocks with
   | some t => if t = [] then [] else [(Strategy.top, t)]
   | none => [])

/-- Model of `TitleExtractor.extract_title`. -/
def extractTitle (first_page : Page) : Str :=
  let text_blocks := first_page.text_blocks
  if text_blocks = [] then UNTITLED
  else
    match selectBestCandidate (titleCandidates text_blocks) with
    | none => UNTITLED
    | some t => if t = [] then UNTITLED else cleanTitle t

/-- Score formula as stated by claim C6 (sum of independent indicator
terms), written from the spec's words for comparison with the source's
sequential accumulation `blockScore`. -/
def claimedScore (b : Block) : Nat :=
  (if b.flags &&& 16 ≠ 0 then 2 else 0) +
  (if (12 : ℚ) < b.size then 1 else 0) +
  (checkTextPatterns (pyStrip b.text)).length +
  (if b.bbox.left < 100 then 1 else 0) +
  (if 5 ≤ (pyStrip b.text).length ∧ (pyStrip b.text).length ≤ 80 then 1
   else 0)

/-- Weight sum of claim C7: the sum of the strategy weights of the
candidate pairs carrying a given text. -/
def weightSum (cs : List (Strategy × Str)) (t : Str) : Int :=
  ((cs.filter (fun p => p.2 = t)).map (fun p => stratWeight p.1)).sum

/-- Total per-text score as stated by claim C7: the sum of the strategy
weights plus the secondary adjustments, written from the spec's words for
comparison with the scores computed by `_select_best_candidate`. -/
def claimedTitleScore (cs : List (Strategy × Str)) (t : Str) : Int :=
  weightSum cs t + adjustScore t

/-- First character (if any) is not whitespace. -/
def headNotWS (s : Str) : Bool :=
  match s with
  | [] => true
  | c :: _ => !pyIsSpace c

/-- No two adjacent whitespace characters. -/
def NoDbl (s : Str) : Prop :=
  List.Chain' (fun a b => ¬(pyIsSpace a = true ∧ pyIsSpace b = true)) s

/-- Strings in collapsed shape: every whitespace character is a single
blank, no two adjacent whitespace characters, none leading or trailing.
The whitespace collapse `collapse` is the identity exactly on these, and
every intermediate string of `_clean_title` is of this shape. -/
def wellFormed (s : Str) : Prop :=
  (∀ c ∈ s, pyIsSpace c = true → c = ' ') ∧ NoDbl s ∧
    headNotWS s = true ∧ headNotWS s.reverse = true

/-! ### Helper lemmas -/

instance : IsTotal Heading headingLe := by
  constructor
  intro a b
  unfold headingLe
  rcases lt_trichotomy a.page b.page with h | h | h
  · exact Or.inl (Or.inl h)
  · rcases le_total a.position b.position with hp | hp
    · exact Or.inl (Or.inr ⟨h, hp⟩)
    · exact Or.inr (Or.inr ⟨h.symm, hp⟩)
  · exact Or.inr (Or.inl h)

instance : IsTrans Heading headingLe := by
  constructor
  intro a b c hab hbc
  unfold headingLe at *
  rcases hab with h1 | ⟨h1, p1⟩
  · rcases hbc with h2 | ⟨h2, _⟩
    · exact Or.inl (h1.trans h2)
    · exact Or.inl (h2 ▸ h1)
  · rcases hbc with h2 | ⟨h2, p2⟩
    · exact Or.inl (h1 ▸ h2)
    · exact Or.inr ⟨h1.trans h2, p1.trans p2⟩

/-- Properties of a candidate produced from a block: the text is the
stripped block text and obeys the pre-filter length bounds. -/
theorem candOf_some_text {pn : Nat} {b : Block} {c : Candidate}
    (h : candOf pn b = some c) :
    c.text = pyStrip b.text ∧ 2 ≤ c.text.length ∧
      c.text.length ≤ MAX_HEADING_LENGTH := by
  unfold candOf at h
  by_cases hpre : pyStrip b.text = [] ∨ (pyStrip b.text).length < 2
  · rw [if_pos hpre] at h
    cases h
  rw [if_neg hpre] at h
  push_neg at hpre
  by_cases hmax : (pyStrip b.text).length > MAX_HEADING_LENGTH
  · rw [if_pos hmax] at h
    cases h
  rw [if_neg hmax] at h
  by_cases hsc : blockScore b ≥ MIN_HEADING_SCORE
  · rw [if_pos hsc, Option.some.injEq] at h
    subst h
    exact ⟨rfl, hpre.2, Nat.le_of_not_lt hmax⟩
  · rw [if_neg hsc] at h
    cases h

/-- Every classified heading keeps the text, page and position of the
candidate it came from. -/
theorem classifyHeadings_mem {cands : List Candidate} {fa : FontTier}
    {e : Heading} (he : e ∈ classifyHeadings cands fa) :
    ∃ c ∈ cands, e.text = c.text := by
  unfold classifyHeadings at he
  rcases List.mem_filterMap.mp he with ⟨c, hc, hsome⟩
  refine ⟨c, hc, ?_⟩
  rcases hd : determineHeadingLevel c.features.font_size c.features.patterns
      c.features fa.h1_threshold fa.h2_threshold fa.h3_threshold with _ | l
  · rw [hd] at hsome
    exact absurd hsome (by simp)
  · rw [hd, Option.some.injEq] at hsome
    subst hsome
    rfl

/-! ### Claim C1 — tier monotonicity of the Font Tier Profile -/

/-- C1 counterexample: a document whose only candidate font size is `9`
(one distinct size below `10`) yields `h1_threshold = 9 <
h2_threshold = 10`, violating the claimed monotonicity. -/
theorem fontTier_not_monotone_cex :
    (analyzeFontSizes
        [⟨"Small Heading".toList, 1, 4, ⟨9, true, false, 0, 0, 0, []⟩⟩]).h1_threshold <
      (analyzeFontSizes
        [⟨"Small Heading".toList, 1, 4, ⟨9, true, false, 0, 0, 0, []⟩⟩]).h2_threshold := by
  have hfs : (([⟨"Small Heading".toList, 1, 4,
      ⟨9, true, false, 0, 0, 0, []⟩⟩] : List Candidate).map
        (fun c => c.features.font_size)).filter (fun s => decide (0 < s)) =
      [(9 : ℚ)] := by decide
  have hu9 : uniqDesc [(9 : ℚ)] = [9] := by decide
  unfold analyzeFontSizes
  simp only []
  rw [hfs, if_neg (by decide), hu9]
  show (9 : ℚ) < pyMax (9 - 2) 10
  unfold pyMax
  rw [if_pos (by norm_num)]
  norm_num

/-- C1 (amended): the Font Tier Profile satisfies
`h1_threshold ≥ h2_threshold ≥ h3_threshold` in every derivation case
except the exactly-one-distinct-size case with that size below 10 (there
the `max(size − 2, 10)` clamp can push `h2_threshold` above
`h1_threshold`); the hypothesis excludes exactly that case. -/
theorem fontTier_monotone (cands : List Candidate)
    (h : ∀ a : ℚ,
      uniqDesc ((cands.map (fun c => c.features.font_size)).filter
        (fun s => 0 < s)) = [a] → 10 ≤ a) :
    (analyzeFontSizes cands).h2_threshold ≤ (analyzeFontSizes cands).h1_threshold ∧
      (analyzeFontSizes cands).h3_threshold ≤ (analyzeFontSizes cands).h2_threshold := by
  unfold analyzeFontSizes
  set fs := (cands.map (fun c => c.features.font_size)).filter (fun s => 0 < s)
    with hfs
  by_cases hempty : fs = []
  · rw [if_pos hempty]
    constructor <;> norm_num
  · rw [if_neg hempty]
    have hsorted : List.Sorted descRel (uniqDesc fs) :=
      List.sorted_insertionSort descRel fs.dedup
    rcases hu : uniqDesc fs with _ | ⟨a, _ | ⟨b, _ | ⟨c, rest⟩⟩⟩
    · exfalso
      have hperm := List.perm_insertionSort descRel fs.dedup
      unfold uniqDesc at hu
      rw [hu] at hperm
      exact hempty ((List.dedup_eq_nil _).mp hperm.symm.eq_nil)
    · have ha := h a hu
      have ht : tierOfUnique [a] = ⟨a, pyMax (a - 2) 10, pyMax (a - 4) 8⟩ := rfl
      rw [ht]
      constructor
      · show pyMax (a - 2) 10 ≤ a
        unfold pyMax
        split_ifs <;> linarith
      · show pyMax (a - 4) 8 ≤ pyMax (a - 2) 10
        unfold pyMax
        split_ifs <;> linarith
    · rw [hu] at hsorted
      have hab : descRel a b := List.rel_of_sorted_cons hsorted b (by simp)
      have ht : tierOfUnique [a, b] = ⟨a, b, b - 1⟩ := rfl
      rw [ht]
      exact ⟨hab, by norm_num⟩
    · rw [hu] at hsorted
      have hab : descRel a b := List.rel_of_sorted_cons hsorted b (by simp)
      have hbc : descRel b c :=
        List.rel_of_sorted_cons (List.sorted_cons.mp hsorted).2 c (by simp)
      have ht : tierOfUnique (a :: b :: c :: rest) = ⟨a, b, c⟩ := rfl
      rw [ht]
      exact ⟨hab, hbc⟩

/-- C1 witness: a document with three distinct candidate sizes 16/14/12
satisfies the hypothesis and the monotone conclusion. -/
theorem fontTier_monotone_witness :
    (analyzeFontSizes
        [⟨"Alpha One".toList, 1, 5, ⟨16, true, false, 0, 0, 0, []⟩⟩,
         ⟨"Beta Two".toList, 1, 5, ⟨14, true, false, 0, 10, 10, []⟩⟩,
         ⟨"Gamma Three".toList, 1, 5, ⟨12, true, false, 0, 20, 20, []⟩⟩]).h2_threshold ≤
      (analyzeFontSizes
        [⟨"Alpha One".toList, 1, 5, ⟨16, true, false, 0, 0, 0, []⟩⟩,
         ⟨"Beta Two".toList, 1, 5, ⟨14, true, false, 0, 10, 10, []⟩⟩,
         ⟨"Gamma Three".toList, 1, 5, ⟨12, true, false, 0, 20, 20, []⟩⟩]).h1_threshold ∧
    (analyzeFontSizes
        [⟨"Alpha One".toList, 1, 5, ⟨16, true, false, 0, 0, 0, []⟩⟩,
         ⟨"Beta Two".toList, 1, 5, ⟨14, true, false, 0, 10, 10, []⟩⟩,
         ⟨"Gamma Three".toList, 1, 5, ⟨12, true, false, 0, 20, 20, []⟩⟩]).h3_threshold ≤
      (analyzeFontSizes
        [⟨"Alpha One".toList, 1, 5, ⟨16, true, false, 0, 0, 0, []⟩⟩,
         ⟨"Beta Two".toList, 1, 5, ⟨14, true, false, 0, 10, 10, []⟩⟩,
         ⟨"Gamma Three".toList, 1, 5, ⟨12, true, false, 0, 20, 20, []⟩⟩]).h2_threshold := by
  apply fontTier_monotone
  intro a ha
  have hlen : (uniqDesc (((
      [⟨"Alpha One".toList, 1, 5, ⟨16, true, false, 0, 0, 0, []⟩⟩,
       ⟨"Beta Two".toList, 1, 5, ⟨14, true, false, 0, 10, 10, []⟩⟩,
       ⟨"Gamma Three".toList, 1, 5, ⟨12, true, false, 0, 20, 20, []⟩⟩] :
        List Candidate).map (fun c => c.features.font_size)).filter
      (fun s => 0 < s))).length = 3 := by decide
  rw [ha] at hlen
  simp at hlen

/-! ### Claim C2 — the numbered → H1 priority rule -/

/-- C2: the source re-checks the numbered pattern against
`features.get('text', '')`, but the features record has no `text` key, so
the check runs on the empty string and never succeeds.  A non-bold
candidate with text `"3. Overview"` (matched patterns include `numbered`
and not `sub_numbered`), font size 10 and thresholds 16/14/12 is
rejected (`none`) instead of being classified H1 as the claim states. -/
theorem numbered_rule_dead :
    checkTextPatterns "3. Overview".toList = [Pat.numbered, Pat.title_case] ∧
      determineHeadingLevel 10 (checkTextPatterns "3. Overview".toList)
        ⟨10, false, false, 50, 100, 100,
          checkTextPatterns "3. Overview".toList⟩ 16 14 12 = none := by
  decide

/-! ### Claim C3 — the all_caps promotion length bound -/

/-- C3: the promotion's length guard also reads the missing `text` key of
the features record, so it compares `len('') = 0 < 50`, which always
holds.  A bold all-caps candidate of text length 52 at the H3 tier is
promoted to H2, while the claim states it stays at H3. -/
theorem allcaps_promotion_ignores_length :
    (List.replicate 52 'A').length = 52 ∧
      checkTextPatterns (List.replicate 52 'A') = [Pat.all_caps] ∧
      determineHeadingLevel 12 (checkTextPatterns (List.replicate 52 'A'))
        ⟨12, true, false, 50, 100, 100,
          checkTextPatterns (List.replicate 52 'A')⟩ 16 14 12 =
        some Level.H2 := by
  decide

/-! ### Claim C5 — output ordering of the outline -/

/-- C5: for every input span collection the emitted outline is sorted:
consecutive entries are non-decreasing in page, and among equal pages
non-decreasing in position. -/
theorem detectHeadings_sorted (pages : List Page) :
    List.Chain'
      (fun a b => a.page ≤ b.page ∧ (a.page = b.page → a.position ≤ b.position))
      (detectHeadings pages) := by
  unfold detectHeadings
  simp only []
  split
  · exact List.chain'_nil
  · have hs := List.sorted_insertionSort headingLe
      (classifyHeadings ((pages.map findHeadingCandidates).flatten)
        (analyzeFontSizes ((pages.map findHeadingCandidates).flatten)))
    have hc := List.Pairwise.chain' hs
    refine hc.imp ?_
    intro a b hab
    rcases hab with h | ⟨h, hp⟩
    · exact ⟨le_of_lt h, fun heq => absurd heq (ne_of_lt h)⟩
    · exact ⟨le_of_eq h, fun _ => hp⟩

/-! ### Claim C8 — empty-input fallbacks -/

/-- C8: a first page with zero spans yields exactly "Untitled Document",
and a document whose pages yield zero heading candidates yields the empty
outline; neither is an error. -/
theorem empty_input_fallbacks :
    (∀ pg : Page, pg.text_blocks = [] → extractTitle pg = UNTITLED) ∧
      ∀ pages : List Page,
        (pages.map findHeadingCandidates).flatten = [] →
          detectHeadings pages = [] := by
  constructor
  · intro pg h
    unfold extractTitle
    rw [h]
    rfl
  · intro pages h
    unfold detectHeadings
    rw [h]
    rfl

/-- C8 witness: the empty first page, and a document whose only span is a
single character (pre-filtered out, so no candidates). -/
theorem empty_input_fallbacks_witness :
    extractTitle ⟨1, []⟩ = UNTITLED ∧
      detectHeadings [⟨1, [⟨"a".toList, 12, 0, [], ⟨0, 0, 5, 5⟩⟩]⟩] = [] :=
  ⟨empty_input_fallbacks.1 ⟨1, []⟩ rfl,
   empty_input_fallbacks.2 [⟨1, [⟨"a".toList, 12, 0, [], ⟨0, 0, 5, 5⟩⟩]⟩]
     (by decide)⟩

/-! ### Claim C6 — the heading-candidate score formula -/

/-- C6: for every pre-filtered span the computed heading score equals the
claimed indicator-sum formula, and the span becomes a Heading Candidate
exactly when that score reaches `MIN_HEADING_SCORE`. -/
theorem heading_score_formula (pn : Nat) (b : Block)
    (hmin : 2 ≤ (pyStrip b.text).length)
    (hmax : (pyStrip b.text).length ≤ MAX_HEADING_LENGTH) :
    blockScore b = claimedScore b ∧
      ((candOf pn b).isSome ↔ MIN_HEADING_SCORE ≤ blockScore b) ∧
      ∀ c : Candidate, candOf pn b = some c → c.score = blockScore b := by
  have hpre : ¬(pyStrip b.text = [] ∨ (pyStrip b.text).length < 2) := by
    push_neg
    constructor
    · intro h
      rw [h] at hmin
      exact absurd hmin (by norm_num)
    · exact hmin
  have hmax' : ¬((pyStrip b.text).length > MAX_HEADING_LENGTH) :=
    not_lt.mpr hmax
  refine ⟨?_, ?_, ?_⟩
  · unfold blockScore claimedScore
    simp only []
    by_cases hp : checkTextPatterns (pyStrip b.text) = []
    · rw [if_neg (not_not_intro hp), hp]
      simp
    · rw [if_pos hp]
      simp [gt_iff_lt]
  · unfold candOf
    rw [if_neg hpre, if_neg hmax']
    by_cases hs : blockScore b ≥ MIN_HEADING_SCORE
    · rw [if_pos hs]
      simpa using hs
    · rw [if_neg hs]
      simpa using hs
  · intro c hc
    unfold candOf at hc
    rw [if_neg hpre, if_neg hmax'] at hc
    by_cases hs : blockScore b ≥ MIN_HEADING_SCORE
    · rw [if_pos hs, Option.some.injEq] at hc
      subst hc
      rfl
    · rw [if_neg hs] at hc
      cases hc

/-- C6 witness: a bold 16pt all-caps block near the left margin. -/
theorem heading_score_formula_witness :
    blockScore ⟨" ABC DEF ".toList, 16, 16, [], ⟨10, 5, 60, 20⟩⟩ =
      claimedScore ⟨" ABC DEF ".toList, 16, 16, [], ⟨10, 5, 60, 20⟩⟩ ∧
      ((candOf 1 ⟨" ABC DEF ".toList, 16, 16, [], ⟨10, 5, 60, 20⟩⟩).isSome ↔
        MIN_HEADING_SCORE ≤
          blockScore ⟨" ABC DEF ".toList, 16, 16, [], ⟨10, 5, 60, 20⟩⟩) ∧
      ∀ c : Candidate,
        candOf 1 ⟨" ABC DEF ".toList, 16, 16, [], ⟨10, 5, 60, 20⟩⟩ = some c →
          c.score = blockScore ⟨" ABC DEF ".toList, 16, 16, [], ⟨10, 5, 60, 20⟩⟩ :=
  heading_score_formula 1 ⟨" ABC DEF ".toList, 16, 16, [], ⟨10, 5, 60, 20⟩⟩
    (by decide) (by decide)

/-! ### Claim C9 — heading entries preserve the pre-filtered span text -/

/-- C9: every emitted heading entry's text is the whitespace-trimmed text
of an originating span and keeps the pre-filter length bounds
`2 ≤ len ≤ MAX_HEADING_LENGTH`. -/
theorem heading_text_preserved (pages : List Page) (e : Heading)
    (he : e ∈ detectHeadings pages) :
    (∃ pg ∈ pages, ∃ b ∈ pg.text_blocks, e.text = pyStrip b.text) ∧
      2 ≤ e.text.length ∧ e.text.length ≤ MAX_HEADING_LENGTH := by
  unfold detectHeadings at he
  simp only [] at he
  by_cases hc : (pages.map findHeadingCandidates).flatten = []
  · rw [if_pos hc] at he
    cases he
  · rw [if_neg hc] at he
    have hperm := List.perm_insertionSort headingLe
      (classifyHeadings ((pages.map findHeadingCandidates).flatten)
        (analyzeFontSizes ((pages.map findHeadingCandidates).flatten)))
    have he2 := hperm.mem_iff.mp he
    rcases classifyHeadings_mem he2 with ⟨c, hcmem, htext⟩
    rcases List.mem_flatten.mp hcmem with ⟨l, hl, hcl⟩
    rcases List.mem_map.mp hl with ⟨pg, hpg, rfl⟩
    rcases List.mem_filterMap.mp hcl with ⟨b, hb, hcb⟩
    have hprops := candOf_some_text hcb
    refine ⟨⟨pg, hpg, b, hb, ?_⟩, ?_, ?_⟩
    · rw [htext, hprops.1]
    · rw [htext]
      exact hprops.2.1
    · rw [htext]
      exact hprops.2.2

/-- C9 witness: a one-page document emitting one H1 entry. -/
theorem heading_text_preserved_witness :
    (∃ pg ∈ [(⟨1, [⟨" ABC DEF ".toList, 16, 16, [], ⟨10, 5, 60, 20⟩⟩]⟩ : Page)],
      ∃ b ∈ pg.text_blocks,
        (⟨Level.H1, "ABC DEF".toList, 1, 5⟩ : Heading).text = pyStrip b.text) ∧
      2 ≤ (⟨Level.H1, "ABC DEF".toList, 1, 5⟩ : Heading).text.length ∧
      (⟨Level.H1, "ABC DEF".toList, 1, 5⟩ : Heading).text.length ≤
        MAX_HEADING_LENGTH :=
  heading_text_preserved
    [⟨1, [⟨" ABC DEF ".toList, 16, 16, [], ⟨10, 5, 60, 20⟩⟩]⟩]
    ⟨Level.H1, "ABC DEF".toList, 1, 5⟩ (by decide)

/-! ### Claim C7 — title candidate scoring and merge -/

/-- Invariant of the weight-accumulation fold: starting from an
association list whose entries record `f` and whose missing keys have
`f = 0`, every entry of the result records `f` plus the weight sum of
the processed candidates. -/
theorem foldl_addWeight_spec (cs : List (Strategy × Str)) :
    ∀ (m : List (Str × Int)) (f : Str → Int),
      (∀ p ∈ m, p.2 = f p.1) →
      (∀ t : Str, (∀ p ∈ m, p.1 ≠ t) → f t = 0) →
      ∀ p ∈ cs.foldl (fun m sc => addWeight m sc.2 (stratWeight sc.1)) m,
        p.2 = f p.1 + weightSum cs p.1 := by
  induction cs with
  | nil =>
    intro m f h1 _ p hp
    have : weightSum [] p.1 = 0 := rfl
    rw [this, add_zero]
    exact h1 p hp
  | cons sc cs ih =>
    intro m f h1 h2 p hp
    rw [List.foldl_cons] at hp
    have key := ih (addWeight m sc.2 (stratWeight sc.1))
      (fun x => f x + (if x = sc.2 then stratWeight sc.1 else 0)) ?_ ?_ p hp
    · rw [key]
      have hws : weightSum (sc :: cs) p.1 =
          (if p.1 = sc.2 then stratWeight sc.1 else 0) + weightSum cs p.1 := by
        unfold weightSum
        rw [List.filter_cons]
        by_cases he : sc.2 = p.1
        · rw [if_pos (by simp [he]), if_pos he.symm]
          simp
        · rw [if_neg (by simp [he]), if_neg (fun hx => he hx.symm)]
          simp
      rw [hws]
      ring
    · intro q hq
      unfold addWeight at hq
      split at hq
      · rcases List.mem_map.mp hq with ⟨q0, hq0, rfl⟩
        by_cases he : q0.1 = sc.2
        · rw [if_pos he]
          show q0.2 + stratWeight sc.1 =
            f q0.1 + if q0.1 = sc.2 then stratWeight sc.1 else 0
          rw [if_pos he, h1 q0 hq0]
        · rw [if_neg he]
          show q0.2 = f q0.1 + if q0.1 = sc.2 then stratWeight sc.1 else 0
          rw [if_neg he, add_zero]
          exact h1 q0 hq0
      · rename_i hany
        rcases List.mem_append.mp hq with hq0 | hq0
        · have hne : q.1 ≠ sc.2 := by
            intro hx
            exact absurd (List.any_eq_true.mpr ⟨q, hq0, by simp [hx]⟩) hany
          show q.2 = f q.1 + if q.1 = sc.2 then stratWeight sc.1 else 0
          rw [if_neg hne, add_zero]
          exact h1 q hq0
        · have hq1 : q = (sc.2, stratWeight sc.1) := List.mem_singleton.mp hq0
          subst hq1
          show stratWeight sc.1 =
            f sc.2 + if sc.2 = sc.2 then stratWeight sc.1 else 0
          have hf : f sc.2 = 0 := by
            apply h2
            intro r hr hx
            exact absurd (List.any_eq_true.mpr ⟨r, hr, by simp [hx]⟩) hany
          rw [if_pos rfl, hf, zero_add]
    · intro t hmem
      by_cases hts : t = sc.2
      · exfalso
        subst hts
        unfold addWeight at hmem
        split at hmem
        · rename_i hany
          rcases List.any_eq_true.mp hany with ⟨q, hq, hqt⟩
          have hqt' : q.1 = sc.2 := by simpa using hqt
          exact hmem (q.1, q.2 + stratWeight sc.1)
            (List.mem_map.mpr ⟨q, hq, by rw [if_pos hqt']⟩) hqt'
        · exact hmem (sc.2, stratWeight sc.1)
            (List.mem_append.mpr (Or.inr (by simp))) rfl
      · show f t + (if t = sc.2 then stratWeight sc.1 else 0) = 0
        rw [if_neg hts, add_zero]
        apply h2
        intro q hq
        unfold addWeight at hmem
        split at hmem
        · have hmem' := hmem (if q.1 = sc.2 then (q.1, q.2 + stratWeight sc.1) else q)
            (List.mem_map.mpr ⟨q, hq, rfl⟩)
          by_cases hqe : q.1 = sc.2
          · rw [if_pos hqe] at hmem'
            exact hmem'
          · rw [if_neg hqe] at hmem'
            exact hmem'
        · exact hmem q (List.mem_append.mpr (Or.inl hq))

/-- The scoring dictionary update never produces an empty list. -/
theorem addWeight_ne_nil (m : List (Str × Int)) (t : Str) (w : Int) :
    addWeight m t w ≠ [] := by
  unfold addWeight
  split
  · rename_i hany
    intro hnil
    rw [List.map_eq_nil_iff] at hnil
    rw [hnil] at hany
    simp at hany
  · intro hnil
    simp at hnil

/-- The weight-accumulation fold preserves non-emptiness. -/
theorem foldl_addWeight_ne_nil (cs : List (Strategy × Str)) :
    ∀ m : List (Str × Int), m ≠ [] →
      cs.foldl (fun m sc => addWeight m sc.2 (stratWeight sc.1)) m ≠ [] := by
  induction cs with
  | nil => exact fun m hm => hm
  | cons sc cs ih =>
    intro m _
    rw [List.foldl_cons]
    exact ih _ (addWeight_ne_nil m sc.2 (stratWeight sc.1))

/-- A non-empty candidate list yields a non-empty score dictionary. -/
theorem buildScores_ne_nil {cs : List (Strategy × Str)} (h : cs ≠ []) :
    buildScores cs ≠ [] := by
  unfold buildScores
  rcases cs with _ | ⟨sc, cs⟩
  · exact absurd rfl h
  · rw [List.foldl_cons]
    exact foldl_addWeight_ne_nil cs _ (addWeight_ne_nil [] sc.2 (stratWeight sc.1))

/-- The running best of Python `max` never decreases below the start. -/
theorem foldl_pickMax_ge (rest : List (Str × Int)) :
    ∀ p : Str × Int, p.2 ≤ (rest.foldl pickMax p).2 := by
  induction rest with
  | nil => exact fun _ => le_refl _
  | cons q rest ih =>
    intro p
    rw [List.foldl_cons]
    unfold pickMax
    by_cases h : p.2 < q.2
    · rw [if_pos h]
      exact le_of_lt (lt_of_lt_of_le h (ih q))
    · rw [if_neg h]
      exact ih p

/-- Python `max` returns the first maximal item: the input splits into a
prefix of strictly smaller values, the returned item, and a suffix of
values not exceeding it. -/
theorem foldl_pickMax_first (rest : List (Str × Int)) :
    ∀ p : Str × Int, ∃ pre post,
      p :: rest = pre ++ (rest.foldl pickMax p) :: post ∧
      (∀ q ∈ pre, q.2 < (rest.foldl pickMax p).2) ∧
      (∀ q ∈ post, q.2 ≤ (rest.foldl pickMax p).2) := by
  induction rest with
  | nil =>
    intro p
    exact ⟨[], [], rfl, by simp, by simp⟩
  | cons q rest ih =>
    intro p
    rw [List.foldl_cons]
    by_cases h : p.2 < q.2
    · have hpq : pickMax p q = q := if_pos h
      rw [hpq]
      rcases ih q with ⟨pre, post, hdec, hpre, hpost⟩
      refine ⟨p :: pre, post, ?_, ?_, hpost⟩
      · rw [List.cons_append, ← hdec]
      · intro r hr
        rcases List.mem_cons.mp hr with rfl | hr
        · exact lt_of_lt_of_le h (foldl_pickMax_ge rest q)
        · exact hpre r hr
    · have hpq : pickMax p q = p := if_neg h
      rw [hpq]
      rcases ih p with ⟨pre, post, hdec, hpre, hpost⟩
      rcases pre with _ | ⟨a, pre'⟩
      · rw [List.nil_append] at hdec
        injection hdec with hb1 hb2
        refine ⟨[], q :: post, ?_, by simp, ?_⟩
        · rw [List.nil_append, ← hb1, hb2]
        · intro r hr
          rcases List.mem_cons.mp hr with rfl | hr
          · rw [← hb1]
            exact le_of_not_lt h
          · exact hpost r hr
      · rw [List.cons_append] at hdec
        injection hdec with hb1 hb2
        have hpa : p.2 = a.2 := congrArg Prod.snd hb1
        have hp2 : p.2 < (rest.foldl pickMax p).2 := by
          rw [hpa]
          exact hpre a (by simp)
        refine ⟨p :: q :: pre', post, ?_, ?_, hpost⟩
        · rw [List.cons_append, List.cons_append, ← hb2]
        · intro r hr
          rcases List.mem_cons.mp hr with rfl | hr
          · exact hp2
          · rcases List.mem_cons.mp hr with rfl | hr
            · exact lt_of_le_of_lt (le_of_not_lt h) hp2
            · exact hpre r (by simp [hr])

/-- C7: for every non-empty candidate list, the selector returns the text
whose adjusted score (sum of strategy weights plus secondary adjustments)
is maximal, ties broken in favour of the text first encountered; every
entry of the score table equals the claimed per-text score. -/
theorem selectBest_argmax (cs : List (Strategy × Str)) (h : cs ≠ []) :
    ∃ w : Str, selectBestCandidate cs = some w ∧
      (∀ p ∈ adjustedScores cs, p.2 = claimedTitleScore cs p.1) ∧
      ∃ pre post,
        adjustedScores cs = pre ++ (w, claimedTitleScore cs w) :: post ∧
        (∀ p ∈ pre, p.2 < claimedTitleScore cs w) ∧
        (∀ p ∈ post, p.2 ≤ claimedTitleScore cs w) := by
  have hscore : ∀ q ∈ adjustedScores cs, q.2 = claimedTitleScore cs q.1 := by
    intro q hq
    unfold adjustedScores at hq
    rcases List.mem_map.mp hq with ⟨q0, hq0, rfl⟩
    have hw := foldl_addWeight_spec cs [] (fun _ => 0) (by simp) (fun _ _ => rfl)
      q0 hq0
    rw [zero_add] at hw
    show q0.2 + adjustScore q0.1 = claimedTitleScore cs q0.1
    rw [hw]
    rfl
  have hadj : adjustedScores cs ≠ [] := by
    unfold adjustedScores
    rw [Ne, List.map_eq_nil_iff]
    exact buildScores_ne_nil h
  rcases List.exists_cons_of_ne_nil hadj with ⟨p, rest, hl⟩
  have hsel : selectBestCandidate cs = some (rest.foldl pickMax p).1 := by
    unfold selectBestCandidate maxFirst
    rw [if_neg h, hl]
  rcases foldl_pickMax_first rest p with ⟨pre, post, hdec, hpre, hpost⟩
  have hbestmem : rest.foldl pickMax p ∈ adjustedScores cs := by
    rw [hl, hdec]
    exact List.mem_append.mpr (Or.inr (by simp))
  have hbest2 : (rest.foldl pickMax p).2 =
      claimedTitleScore cs (rest.foldl pickMax p).1 :=
    hscore _ hbestmem
  refine ⟨(rest.foldl pickMax p).1, hsel, hscore, pre, post, ?_, ?_, ?_⟩
  · rw [hl, hdec, ← hbest2]
  · intro q hq
    rw [← hbest2]
    exact hpre q hq
  · intro q hq
    rw [← hbest2]
    exact hpost q hq

/-- C7 witness: two strategies vote for one text and one for another; the
selector picks the higher-scored text. -/
theorem selectBest_argmax_witness :
    ∃ w : Str, selectBestCandidate
        [(Strategy.font_size, "Alpha Beta".toList),
         (Strategy.top, "Alpha Beta".toList),
         (Strategy.style, "Gamma Delta".toList)] = some w ∧
      (∀ p ∈ adjustedScores
        [(Strategy.font_size, "Alpha Beta".toList),
         (Strategy.top, "Alpha Beta".toList),
         (Strategy.style, "Gamma Delta".toList)],
          p.2 = claimedTitleScore
            [(Strategy.font_size, "Alpha Beta".toList),
             (Strategy.top, "Alpha Beta".toList),
             (Strategy.style, "Gamma Delta".toList)] p.1) ∧
      ∃ pre post,
        adjustedScores
          [(Strategy.font_size, "Alpha Beta".toList),
           (Strategy.top, "Alpha Beta".toList),
           (Strategy.style, "Gamma Delta".toList)] =
          pre ++ (w, claimedTitleScore
            [(Strategy.font_size, "Alpha Beta".toList),
             (Strategy.top, "Alpha Beta".toList),
             (Strategy.style, "Gamma Delta".toList)] w) :: post ∧
        (∀ p ∈ pre, p.2 < claimedTitleScore
            [(Strategy.font_size, "Alpha Beta".toList),
             (Strategy.top, "Alpha Beta".toList),
             (Strategy.style, "Gamma Delta".toList)] w) ∧
        (∀ p ∈ post, p.2 ≤ claimedTitleScore
            [(Strategy.font_size, "Alpha Beta".toList),
             (Strategy.top, "Alpha Beta".toList),
             (Strategy.style, "Gamma Delta".toList)] w) :=
  selectBest_argmax
    [(Strategy.font_size, "Alpha Beta".toList),
     (Strategy.top, "Alpha Beta".toList),
     (Strategy.style, "Gamma Delta".toList)] (by decide)

/-! ### Claim C10 — title output is non-empty and length-bounded -/

/-- Stripping whitespace never lengthens a string. -/
theorem pyStrip_length_le (s : Str) : (pyStrip s).length ≤ s.length := by
  unfold pyStrip
  calc ((s.dropWhile pyIsSpace).reverse.dropWhile pyIsSpace).reverse.length
      = ((s.dropWhile pyIsSpace).reverse.dropWhile pyIsSpace).length :=
        List.length_reverse _
    _ ≤ (s.dropWhile pyIsSpace).reverse.length :=
        (List.dropWhile_sublist _).length_le
    _ = (s.dropWhile pyIsSpace).length := List.length_reverse _
    _ ≤ s.length := (List.dropWhile_sublist _).length_le

/-- Splitting a whitespace-only string produces no words. -/
theorem pySplit_all_ws (s : Str) (h : ∀ c ∈ s, pyIsSpace c = true) :
    pySplit s = [] := by
  unfold pySplit
  induction s with
  | nil => rfl
  | cons c rest ih =>
    have hc : pyIsSpace c = true := h c (by simp)
    show splitW [] (c :: rest) = []
    unfold splitW
    rw [if_pos hc, if_pos rfl]
    exact ih (fun d hd => h d (by simp [hd]))

/-- The final guard of `_clean_title` never returns the empty string. -/
theorem finalIf_ne_nil (X : Str) : (if X = [] then UNTITLED else X) ≠ [] := by
  by_cases hn : X = []
  · rw [if_pos hn]
    decide
  · rw [if_neg hn]
    exact hn

/-- The final guard of `_clean_title` preserves a length bound that holds
for both branches. -/
theorem finalIf_length {X : Str} (h : X.length ≤ MAX_TITLE_LENGTH + 3) :
    (if X = [] then UNTITLED else X).length ≤ MAX_TITLE_LENGTH + 3 := by
  by_cases hn : X = []
  · rw [if_pos hn]
    decide
  · rw [if_neg hn]
    exact h

/-- The cleaned title is never the empty string. -/
theorem cleanTitle_ne_nil (t : Str) : cleanTitle t ≠ [] := by
  unfold cleanTitle
  by_cases h0 : t = []
  · rw [if_pos h0]
    decide
  · rw [if_neg h0]
    simp only []
    exact finalIf_ne_nil _

/-- The cleaned title never exceeds `MAX_TITLE_LENGTH + 3` characters
(the truncated body plus the three-character ellipsis). -/
theorem cleanTitle_length_le (t : Str) :
    (cleanTitle t).length ≤ MAX_TITLE_LENGTH + 3 := by
  unfold cleanTitle
  by_cases h0 : t = []
  · rw [if_pos h0]
    decide
  · rw [if_neg h0]
    simp only []
    refine finalIf_length ?_
    have htt : (pyStrip ((stripPfxs (collapse t)).take MAX_TITLE_LENGTH)).length ≤
        MAX_TITLE_LENGTH := by
      calc (pyStrip ((stripPfxs (collapse t)).take MAX_TITLE_LENGTH)).length
          ≤ ((stripPfxs (collapse t)).take MAX_TITLE_LENGTH).length :=
            pyStrip_length_le _
        _ ≤ MAX_TITLE_LENGTH := by
            rw [List.length_take]
            exact Nat.min_le_left _ _
    by_cases hgt : (stripPfxs (collapse t)).length > MAX_TITLE_LENGTH
    · rw [if_pos hgt]
      by_cases hsuf : List.isSuffixOf "...".toList
          (pyStrip ((stripPfxs (collapse t)).take MAX_TITLE_LENGTH)) = true
      · rw [if_pos hsuf]
        omega
      · rw [if_neg hsuf]
        rw [List.length_append]
        have hd : ("...".toList).length = 3 := by decide
        omega
    · rw [if_neg hgt]
      omega

/-- C10: title extraction always returns a non-empty string of length at
most `MAX_TITLE_LENGTH + 3`, and an empty or whitespace-only winning
candidate is cleaned to the "Untitled Document" sentinel. -/
theorem title_nonempty_bounded :
    (∀ pg : Page, extractTitle pg ≠ [] ∧
      (extractTitle pg).length ≤ MAX_TITLE_LENGTH + 3) ∧
      ∀ t : Str, (∀ c ∈ t, pyIsSpace c = true) → cleanTitle t = UNTITLED := by
  constructor
  · intro pg
    unfold extractTitle
    simp only []
    by_cases hb : pg.text_blocks = []
    · rw [if_pos hb]
      exact ⟨by decide, by decide⟩
    · rw [if_neg hb]
      rcases hsel : selectBestCandidate (titleCandidates pg.text_blocks) with _ | t
      · exact ⟨by decide, by decide⟩
      · show (if t = [] then UNTITLED else cleanTitle t) ≠ [] ∧
          (if t = [] then UNTITLED else cleanTitle t).length ≤
            MAX_TITLE_LENGTH + 3
        by_cases ht : t = []
        · rw [if_pos ht]
          exact ⟨by decide, by decide⟩
        · rw [if_neg ht]
          exact ⟨cleanTitle_ne_nil t, cleanTitle_length_le t⟩
  · intro t hws
    by_cases h0 : t = []
    · rw [h0]
      rfl
    · have hcol : collapse t = [] := by
        unfold collapse
        rw [pySplit_all_ws t hws]
        rfl
      unfold cleanTitle
      rw [if_neg h0]
      simp only [hcol]
      have hpfx : stripPfxs [] = [] := by decide
      rw [hpfx]
      rfl

/-- C10 witness: the empty page and a whitespace-only candidate. -/
theorem title_nonempty_bounded_witness :
    (extractTitle ⟨1, [⟨"Alpha Beta".toList, 12, 0, [], ⟨0, 0, 50, 10⟩⟩]⟩ ≠ [] ∧
      (extractTitle ⟨1, [⟨"Alpha Beta".toList, 12, 0, [], ⟨0, 0, 50, 10⟩⟩]⟩).length ≤
        MAX_TITLE_LENGTH + 3) ∧
      cleanTitle "   ".toList = UNTITLED :=
  ⟨title_nonempty_bounded.1 ⟨1, [⟨"Alpha Beta".toList, 12, 0, [], ⟨0, 0, 50, 10⟩⟩]⟩,
   title_nonempty_bounded.2 "   ".toList (by decide)⟩

/-! ### Claim C4 — idempotence of title cleaning -/

/-- Unfolding equation of `splitW` on the empty string. -/
theorem splitW_nil_eq (acc : Str) :
    splitW acc [] = if acc = [] then [] else [acc.reverse] := rfl

/-- Unfolding equation of `splitW` on a cons. -/
theorem splitW_cons_eq (acc : Str) (c : Char) (rest : Str) :
    splitW acc (c :: rest) =
      if pyIsSpace c then
        (if acc = [] then [] else [acc.reverse]) ++ splitW [] rest
      else splitW (c :: acc) rest := rfl

/-- Unfolding: splitting the empty string. -/
theorem pySplit_nil : pySplit [] = [] := rfl

/-- A word run stops at the empty string. -/
theorem takeWord_nil : takeWord [] = [] := rfl

/-- The remainder of the empty string. -/
theorem dropWord_nil : dropWord [] = [] := rfl

/-- A word run stops at a whitespace character. -/
theorem takeWord_cons_ws {c : Char} (rest : Str) (h : pyIsSpace c = true) :
    takeWord (c :: rest) = [] := by
  unfold takeWord
  rw [List.takeWhile_cons]
  simp [h]

/-- A word run swallows a non-whitespace character. -/
theorem takeWord_cons_nonws {c : Char} (rest : Str) (h : pyIsSpace c = false) :
    takeWord (c :: rest) = c :: takeWord rest := by
  unfold takeWord
  rw [List.takeWhile_cons]
  simp [h]

/-- The remainder starts at a whitespace character. -/
theorem dropWord_cons_ws {c : Char} (rest : Str) (h : pyIsSpace c = true) :
    dropWord (c :: rest) = c :: rest := by
  unfold dropWord
  rw [List.dropWhile_cons]
  simp [h]

/-- The remainder skips a non-whitespace character. -/
theorem dropWord_cons_nonws {c : Char} (rest : Str) (h : pyIsSpace c = false) :
    dropWord (c :: rest) = dropWord rest := by
  unfold dropWord
  rw [List.dropWhile_cons]
  simp [h]

/-- A string is its head word followed by the remainder. -/
theorem takeWord_append_dropWord (s : Str) : takeWord s ++ dropWord s = s :=
  List.takeWhile_append_dropWhile _ s

/-- Characters of the head word are not whitespace. -/
theorem takeWord_nonws (s : Str) : ∀ c ∈ takeWord s, pyIsSpace c = false := by
  intro c hc
  have hp := List.mem_takeWhile_imp hc
  simpa using hp

/-- The remainder is no longer than the string. -/
theorem dropWord_length_le (s : Str) : (dropWord s).length ≤ s.length :=
  (List.dropWhile_sublist _).length_le

/-- Unfolding: a leading whitespace character is skipped. -/
theorem pySplit_cons_ws {c : Char} (rest : Str) (h : pyIsSpace c = true) :
    pySplit (c :: rest) = pySplit rest := by
  show splitW [] (c :: rest) = splitW [] rest
  rw [splitW_cons_eq, if_pos h, if_pos rfl, List.nil_append]

/-- The accumulator worker with a non-empty accumulator emits the pending
word extended by the next maximal run of non-whitespace characters. -/
theorem splitW_acc_ne (s : Str) : ∀ acc : Str, acc ≠ [] →
    splitW acc s = (acc.reverse ++ takeWord s) :: pySplit (dropWord s) := by
  induction s with
  | nil =>
    intro acc hacc
    rw [splitW_nil_eq, if_neg hacc, takeWord_nil, dropWord_nil, pySplit_nil]
    simp
  | cons c rest ih =>
    intro acc hacc
    by_cases hc : pyIsSpace c = true
    · rw [splitW_cons_eq, if_pos hc, if_neg hacc, takeWord_cons_ws rest hc,
        dropWord_cons_ws rest hc, List.append_nil,
        pySplit_cons_ws rest hc]
      exact List.singleton_append
    · have hc' : pyIsSpace c = false := by
        cases hx : pyIsSpace c
        · rfl
        · exact absurd hx hc
      rw [splitW_cons_eq, if_neg hc, ih (c :: acc) (by simp),
        takeWord_cons_nonws rest hc', dropWord_cons_nonws rest hc']
      simp

/-- Unfolding: a leading non-whitespace character starts a word running
to the next whitespace. -/
theorem pySplit_cons_nonws {c : Char} (rest : Str) (h : pyIsSpace c = false) :
    pySplit (c :: rest) = (c :: takeWord rest) :: pySplit (dropWord rest) := by
  show splitW [] (c :: rest) = _
  rw [splitW_cons_eq, if_neg (by simp [h]), splitW_acc_ne rest [c] (by simp)]
  simp

/-- Every word produced by `pySplit` is non-empty and free of
whitespace. -/
theorem pySplit_words_aux : ∀ (n : Nat) (s : Str), s.length ≤ n →
    ∀ w ∈ pySplit s, w ≠ [] ∧ ∀ c ∈ w, pyIsSpace c = false := by
  intro n
  induction n with
  | zero =>
    intro s hs w hw
    have hnil : s = [] := List.eq_nil_of_length_eq_zero (Nat.le_zero.mp hs)
    rw [hnil, pySplit_nil] at hw
    cases hw
  | succ n ih =>
    intro s hs w hw
    cases s with
    | nil =>
      rw [pySplit_nil] at hw
      cases hw
    | cons c rest =>
      by_cases hc : pyIsSpace c = true
      · rw [pySplit_cons_ws rest hc] at hw
        exact ih rest (by simpa using Nat.le_of_succ_le_succ hs) w hw
      · have hc' : pyIsSpace c = false := by
          cases hx : pyIsSpace c
          · rfl
          · exact absurd hx hc
        rw [pySplit_cons_nonws rest hc'] at hw
        rcases List.mem_cons.mp hw with rfl | hw
        · refine ⟨by simp, ?_⟩
          intro d hd
          rcases List.mem_cons.mp hd with rfl | hd
          · exact hc'
          · exact takeWord_nonws rest d hd
        · refine ih (dropWord rest) ?_ w hw
          calc (dropWord rest).length
              ≤ rest.length := dropWord_length_le rest
            _ ≤ n := by simpa using Nat.le_of_succ_le_succ hs

/-- Wrapper of `pySplit_words_aux` at the string's own length. -/
theorem pySplit_words (s : Str) :
    ∀ w ∈ pySplit s, w ≠ [] ∧ ∀ c ∈ w, pyIsSpace c = false :=
  pySplit_words_aux s.length s (le_refl _)

/-- A whitespace-free string has no two adjacent whitespace characters. -/
theorem chain_of_nonws (s : Str) (h : ∀ c ∈ s, pyIsSpace c = false) :
    NoDbl s := by
  induction s with
  | nil => exact List.chain'_nil
  | cons c rest ih =>
    rw [NoDbl, List.chain'_cons']
    constructor
    · intro y _ hcontra
      exact absurd hcontra.1 (by simp [h c (by simp)])
    · exact ih (fun d hd => h d (by simp [hd]))

/-- A whitespace-free string has no leading whitespace. -/
theorem headNotWS_of_all (s : Str) (h : ∀ c ∈ s, pyIsSpace c = false) :
    headNotWS s = true := by
  cases s with
  | nil => rfl
  | cons a s' =>
    show (!pyIsSpace a) = true
    simp [h a (by simp)]

/-- Appending on the right keeps a non-whitespace head. -/
theorem headNotWS_append (x y : Str) (hx : x ≠ [])
    (h : headNotWS x = true) : headNotWS (x ++ y) = true := by
  cases x with
  | nil => exact absurd rfl hx
  | cons a x' => exact h

/-- Joining a non-empty word list starting with a non-empty word gives a
non-empty string. -/
theorem joinW_ne_nil (w : Str) (ws : List Str) (hw : w ≠ []) :
    joinW (w :: ws) ≠ [] := by
  cases ws with
  | nil => exact hw
  | cons v ws =>
    show w ++ ' ' :: joinW (v :: ws) ≠ []
    simp

/-- The join of non-empty whitespace-free words is well-formed. -/
theorem wellFormed_joinW : ∀ ws : List Str,
    (∀ w ∈ ws, w ≠ [] ∧ ∀ c ∈ w, pyIsSpace c = false) →
    wellFormed (joinW ws) := by
  intro ws
  induction ws with
  | nil =>
    intro _
    exact ⟨fun c hc => (List.not_mem_nil c hc).elim, List.chain'_nil, rfl, rfl⟩
  | cons w ws ih =>
    intro h
    rcases h w (by simp) with ⟨hw, hwc⟩
    cases ws with
    | nil =>
      show wellFormed w
      refine ⟨?_, chain_of_nonws w hwc, headNotWS_of_all w hwc, ?_⟩
      · intro c hc ht
        exact absurd ht (by simp [hwc c hc])
      · exact headNotWS_of_all w.reverse
          (fun c hc => hwc c (by simpa using hc))
    | cons v ws' =>
      have hJ := ih (fun u hu => h u (by simp [hu]))
      have hJne : joinW (v :: ws') ≠ [] := joinW_ne_nil v ws' (h v (by simp)).1
      rcases hJ with ⟨hJblank, hJdbl, hJhead, hJlast⟩
      show wellFormed (w ++ ' ' :: joinW (v :: ws'))
      refine ⟨?_, ?_, ?_, ?_⟩
      · intro c hc ht
        rcases List.mem_append.mp hc with hc | hc
        · exact absurd ht (by simp [hwc c hc])
        · rcases List.mem_cons.mp hc with rfl | hc
          · rfl
          · exact hJblank c hc ht
      · rw [NoDbl, List.chain'_append]
        refine ⟨chain_of_nonws w hwc, ?_, ?_⟩
        · rw [List.chain'_cons']
          refine ⟨?_, hJdbl⟩
          intro y hy hcontra
          have hyn : pyIsSpace y = false := by
            rcases hJy : joinW (v :: ws') with _ | ⟨d, J'⟩
            · rw [hJy] at hy
              cases hy
            · rw [hJy] at hy
              have hyd : d = y := by simpa using hy
              subst hyd
              rw [hJy] at hJhead
              have h2 : (!pyIsSpace d) = true := hJhead
              simpa using h2
          exact absurd hcontra.2 (by simp [hyn])
        · intro x hx y _
          have hxw : x ∈ w := by
            have hxr : x ∈ w.reverse.head? := by
              rw [List.head?_reverse]
              exact hx
            exact (List.mem_reverse).mp (List.mem_of_mem_head? hxr)
          intro hcontra
          exact absurd hcontra.1 (by simp [hwc x hxw])
      · cases w with
        | nil => exact absurd rfl hw
        | cons a w' =>
          show (!pyIsSpace a) = true
          simp [hwc a (by simp)]
      · rw [List.reverse_append]
        have h1 : (' ' :: joinW (v :: ws')).reverse =
            (joinW (v :: ws')).reverse ++ [' '] := by
          simp
        rw [h1]
        have hJrev_ne : (joinW (v :: ws')).reverse ≠ [] := by
          simpa using hJne
        exact headNotWS_append _ _ (by simp)
          (headNotWS_append _ _ hJrev_ne hJlast)

/-- The whitespace collapse always produces a well-formed string. -/
theorem wellFormed_collapse (s : Str) : wellFormed (collapse s) := by
  unfold collapse
  exact wellFormed_joinW (pySplit s) (pySplit_words s)

/-- The first character of a word remainder is whitespace. -/
theorem dropWord_head_ws : ∀ (s : Str) {d : Char} {r : Str},
    dropWord s = d :: r → pyIsSpace d = true := by
  intro s
  induction s with
  | nil =>
    intro d r h
    rw [dropWord_nil] at h
    cases h
  | cons e rest ih =>
    intro d r h
    by_cases he : pyIsSpace e = true
    · rw [dropWord_cons_ws rest he] at h
      injection h with h1 _
      rw [← h1]
      exact he
    · have he' : pyIsSpace e = false := by
        cases hx : pyIsSpace e
        · rfl
        · exact absurd hx he
      rw [dropWord_cons_nonws rest he'] at h
      exact ih h

/-- A non-whitespace head survives splitting off a right part. -/
theorem headNotWS_append_left (x y : Str) (hx : x ≠ [])
    (h : headNotWS (x ++ y) = true) : headNotWS x = true := by
  cases x with
  | nil => exact absurd rfl hx
  | cons a x' => exact h

/-- On well-formed strings the whitespace collapse is the identity
(auxiliary, by strong induction on the length). -/
theorem collapse_of_wf_aux : ∀ (n : Nat) (s : Str), s.length ≤ n →
    wellFormed s → collapse s = s := by
  intro n
  induction n with
  | zero =>
    intro s hs _
    rw [List.eq_nil_of_length_eq_zero (Nat.le_zero.mp hs)]
    rfl
  | succ n ih =>
    intro s hs hwf
    rcases hwf with ⟨hblank, hdbl, hhead, hlast⟩
    cases s with
    | nil => rfl
    | cons c rest =>
      have hc : pyIsSpace c = false := by
        have h0 : (!pyIsSpace c) = true := hhead
        simpa using h0
      have hrest : takeWord rest ++ dropWord rest = rest :=
        takeWord_append_dropWord rest
      unfold collapse
      rw [pySplit_cons_nonws rest hc]
      rcases hr : dropWord rest with _ | ⟨d, r'⟩
      · rw [hr, List.append_nil] at hrest
        rw [pySplit_nil]
        show c :: takeWord rest = c :: rest
        exact congrArg (fun l => c :: l) hrest
      · rw [hr] at hrest
        have hd : pyIsSpace d = true := dropWord_head_ws rest hr
        have hs_eq : c :: rest = (c :: takeWord rest) ++ (d :: r') := by
          rw [List.cons_append]
          exact congrArg (fun l => c :: l) hrest.symm
        have hdmem : d ∈ c :: rest := by
          rw [hs_eq]
          exact List.mem_append.mpr (Or.inr (by simp))
        have hd' : d = ' ' := hblank d hdmem hd
        have hr'ne : r' ≠ [] := by
          intro h0
          subst h0
          have hrev : (c :: rest).reverse =
              d :: (c :: takeWord rest).reverse := by
            rw [hs_eq]
            simp
          rw [hrev] at hlast
          have hbad : (!pyIsSpace d) = true := hlast
          rw [hd] at hbad
          cases hbad
        have hchain : List.Chain'
            (fun a b => ¬(pyIsSpace a = true ∧ pyIsSpace b = true))
            (d :: r') := by
          have hdbl2 := hs_eq ▸ hdbl
          exact (List.chain'_append.mp hdbl2).2.1
        rcases List.exists_cons_of_ne_nil hr'ne with ⟨e, t', he⟩
        have he_nonws : pyIsSpace e = false := by
          have hR := (List.chain'_cons'.mp hchain).1 e (by rw [he]; rfl)
          cases hx : pyIsSpace e
          · rfl
          · exact absurd ⟨hd, hx⟩ hR
        have hr'sub : ∀ x ∈ r', x ∈ c :: rest := by
          intro x hx
          rw [hs_eq]
          exact List.mem_append.mpr (Or.inr (by simp [hx]))
        have hwf' : wellFormed r' := by
          refine ⟨?_, ?_, ?_, ?_⟩
          · intro x hx ht
            exact hblank x (hr'sub x hx) ht
          · exact (List.chain'_cons'.mp hchain).2
          · rw [he]
            show (!pyIsSpace e) = true
            simp [he_nonws]
          · have hrev : (c :: rest).reverse =
                r'.reverse ++ ([d] ++ (c :: takeWord rest).reverse) := by
              rw [hs_eq]
              simp
            rw [hrev] at hlast
            exact headNotWS_append_left _ _ (by simpa using hr'ne) hlast
        have hlen : r'.length ≤ n := by
          have h1 : r'.length + 1 ≤ rest.length := by
            conv_rhs => rw [← hrest]
            rw [List.length_append, List.length_cons]
            omega
          have h2 : rest.length ≤ n := by
            simpa using Nat.le_of_succ_le_succ hs
          omega
        have hIH : collapse r' = r' := ih r' hlen hwf'
        rw [pySplit_cons_ws r' hd, he, pySplit_cons_nonws t' he_nonws]
        have hcol : joinW ((e :: takeWord t') :: pySplit (dropWord t')) = r' := by
          rw [← pySplit_cons_nonws t' he_nonws, ← he]
          exact hIH
        show (c :: takeWord rest) ++ ' ' ::
          joinW ((e :: takeWord t') :: pySplit (dropWord t')) = c :: rest
        rw [hcol, List.cons_append]
        have hfin : takeWord rest ++ ' ' :: r' = rest := by
          rw [← hd']
          exact hrest
        rw [hfin]

/-- On well-formed strings the whitespace collapse is the identity. -/
theorem collapse_of_wf (s : Str) (h : wellFormed s) : collapse s = s :=
  collapse_of_wf_aux s.length s (le_refl _) h

/-- The blank-only-whitespace property restricts to subsets. -/
theorem wsBlank_subset {s t : Str} (hsub : t ⊆ s)
    (h : ∀ c ∈ s, pyIsSpace c = true → c = ' ') :
    ∀ c ∈ t, pyIsSpace c = true → c = ' ' :=
  fun c hc => h c (hsub hc)

/-- Dropping a prefix keeps the no-double-whitespace property. -/
theorem noDbl_drop (s : Str) (n : Nat) (h : NoDbl s) : NoDbl (s.drop n) := by
  have hdec := List.take_append_drop n s
  rw [NoDbl, ← hdec] at h
  exact (List.chain'_append.mp h).2.1

/-- Taking a prefix keeps the no-double-whitespace property. -/
theorem noDbl_take (s : Str) (n : Nat) (h : NoDbl s) : NoDbl (s.take n) := by
  have hdec := List.take_append_drop n s
  rw [NoDbl, ← hdec] at h
  exact (List.chain'_append.mp h).1

/-- Dropping a matched run keeps the no-double-whitespace property. -/
theorem noDbl_dropWhile (s : Str) (p : Char → Bool) (h : NoDbl s) :
    NoDbl (s.dropWhile p) := by
  have hdec := List.takeWhile_append_dropWhile p s
  rw [NoDbl, ← hdec] at h
  exact (List.chain'_append.mp h).2.1

/-- The stripped right-trim of a string with only sane whitespace is
well-formed. -/
theorem wellFormed_stripCore (u : Str)
    (hblank : ∀ c ∈ u, pyIsSpace c = true → c = ' ') (hdbl : NoDbl u)
    (hhead : headNotWS u = true) :
    wellFormed ((u.reverse.dropWhile pyIsSpace).reverse) := by
  have hu_eq : u = (u.reverse.dropWhile pyIsSpace).reverse ++
      (u.reverse.takeWhile pyIsSpace).reverse := by
    calc u = u.reverse.reverse := (List.reverse_reverse u).symm
      _ = ((u.reverse.takeWhile pyIsSpace) ++
          (u.reverse.dropWhile pyIsSpace)).reverse := by
          rw [List.takeWhile_append_dropWhile]
      _ = (u.reverse.dropWhile pyIsSpace).reverse ++
          (u.reverse.takeWhile pyIsSpace).reverse := by
          rw [List.reverse_append]
  refine ⟨?_, ?_, ?_, ?_⟩
  · refine wsBlank_subset ?_ hblank
    intro c hc
    rw [hu_eq]
    exact List.mem_append.mpr (Or.inl hc)
  · rw [NoDbl]
    have h2 := hu_eq ▸ hdbl
    exact (List.chain'_append.mp h2).1
  · rcases hv : (u.reverse.dropWhile pyIsSpace).reverse with _ | ⟨a, v'⟩
    · rfl
    · rw [hv] at hu_eq
      rw [List.cons_append] at hu_eq
      rw [hu_eq] at hhead
      exact hhead
  · rw [List.reverse_reverse]
    rcases hx : u.reverse.dropWhile pyIsSpace with _ | ⟨a, x'⟩
    · rfl
    · show (!pyIsSpace a) = true
      have hnot := List.head?_dropWhile_not pyIsSpace u.reverse
      rw [hx] at hnot
      have ha : pyIsSpace a = false := by simpa using hnot
      simp [ha]

/-- Stripping whitespace from a string with only sane whitespace gives a
well-formed string. -/
theorem wellFormed_pyStrip (s : Str)
    (hblank : ∀ c ∈ s, pyIsSpace c = true → c = ' ') (hdbl : NoDbl s) :
    wellFormed (pyStrip s) := by
  unfold pyStrip
  apply wellFormed_stripCore
  · exact wsBlank_subset (List.dropWhile_subset _) hblank
  · exact noDbl_dropWhile s pyIsSpace hdbl
  · rcases hx : s.dropWhile pyIsSpace with _ | ⟨a, x'⟩
    · rfl
    · show (!pyIsSpace a) = true
      have hnot := List.head?_dropWhile_not pyIsSpace s
      rw [hx] at hnot
      have ha : pyIsSpace a = false := by simpa using hnot
      simp [ha]

/-- The sentinel title is well-formed. -/
theorem wellFormed_UNTITLED : wellFormed UNTITLED := by
  refine ⟨by decide, ?_, by decide, by decide⟩
  show NoDbl UNTITLED
  have hl : UNTITLED = ['U', 'n', 't', 'i', 't', 'l', 'e', 'd', ' ',
      'D', 'o', 'c', 'u', 'm', 'e', 'n', 't'] := rfl
  unfold NoDbl
  rw [hl]
  simp only [List.chain'_cons, List.chain'_singleton]
  decide

/-- The final guard of `_clean_title` preserves well-formedness. -/
theorem wellFormed_finalIf {X : Str} (h : wellFormed X) :
    wellFormed (if X = [] then UNTITLED else X) := by
  split
  · exact wellFormed_UNTITLED
  · exact h

/-- Appending the ellipsis marker preserves well-formedness. -/
theorem wellFormed_append_dots {s : Str} (h : wellFormed s) :
    wellFormed (s ++ "...".toList) := by
  have hlit : "...".toList = ['.', '.', '.'] := rfl
  rcases h with ⟨hblank, hdbl, hhead, hlast⟩
  refine ⟨?_, ?_, ?_, ?_⟩
  · intro c hc ht
    rcases List.mem_append.mp hc with hc | hc
    · exact hblank c hc ht
    · rw [hlit] at hc
      have hc' : c = '.' := by simpa using hc
      rw [hc'] at ht
      exact absurd ht (by decide)
  · rw [NoDbl, List.chain'_append]
    refine ⟨hdbl, ?_, ?_⟩
    · rw [hlit]
      simp only [List.chain'_cons, List.chain'_singleton]
      decide
    · intro x _ y hy hcontra
      rw [hlit] at hy
      have hy' : '.' = y := by simpa using hy
      rw [← hy'] at hcontra
      exact absurd hcontra.2 (by decide)
  · cases s with
    | nil => decide
    | cons a s' => exact hhead
  · rw [List.reverse_append, hlit]
    exact headNotWS_append _ _ (by decide) (by decide)

/-- One prefix-stripping step preserves well-formedness. -/
theorem wellFormed_stripPfx1 (p x : Str) (h : wellFormed x) :
    wellFormed (stripPfx1 p x) := by
  unfold stripPfx1
  split
  · apply wellFormed_pyStrip
    · exact wsBlank_subset (List.drop_subset _ _) h.1
    · exact noDbl_drop x p.length h.2.1
  · exact h

/-- The cleaned title is always well-formed. -/
theorem wellFormed_cleanTitle (t : Str) : wellFormed (cleanTitle t) := by
  unfold cleanTitle
  by_cases h0 : t = []
  · rw [if_pos h0]
    exact wellFormed_UNTITLED
  · rw [if_neg h0]
    simp only []
    apply wellFormed_finalIf
    have h2 : wellFormed (stripPfxs (collapse t)) := by
      unfold stripPfxs
      exact wellFormed_stripPfx1 _ _
        (wellFormed_stripPfx1 _ _
          (wellFormed_stripPfx1 _ _ (wellFormed_collapse t)))
    split
    · have htt : wellFormed
          (pyStrip ((stripPfxs (collapse t)).take MAX_TITLE_LENGTH)) :=
        wellFormed_pyStrip _
          (wsBlank_subset (List.take_subset _ _) h2.1)
          (noDbl_take _ _ h2.2.1)
      split
      · exact htt
      · exact wellFormed_append_dots htt
    · exact h2

/-- A prefix-strip step on a title not carrying the prefix is the
identity. -/
theorem stripPfx1_no (p x : Str)
    (h : List.isPrefixOf p (pyLower x) = false) : stripPfx1 p x = x := by
  unfold stripPfx1
  rw [if_neg (by simp [h])]

/-- C4 counterexample: title cleaning is not idempotent.  Each pass
strips at most one leading `title:` prefix, so cleaning
`"title:title: X"` yields `"title: X"`, and cleaning that again yields
`"X"`. -/
theorem cleanTitle_not_idem_cex :
    cleanTitle (cleanTitle "title:title: X".toList) ≠
      cleanTitle "title:title: X".toList := by
  decide

/-- C4 (amended): re-cleaning an already-cleaned title returns it
unchanged, provided the cleaned title does not itself begin
(case-insensitively) with `title:`, `subject:` or `document:` (otherwise
the second pass strips the prefix again) and its length is at most
`MAX_TITLE_LENGTH` (otherwise the first pass appended the ellipsis past
the limit and the second pass truncates again). -/
theorem cleanTitle_idem (t : Str)
    (hp1 : List.isPrefixOf "title:".toList (pyLower (cleanTitle t)) = false)
    (hp2 : List.isPrefixOf "subject:".toList (pyLower (cleanTitle t)) = false)
    (hp3 : List.isPrefixOf "document:".toList (pyLower (cleanTitle t)) = false)
    (hl : (cleanTitle t).length ≤ MAX_TITLE_LENGTH) :
    cleanTitle (cleanTitle t) = cleanTitle t := by
  have hne := cleanTitle_ne_nil t
  have hwf := wellFormed_cleanTitle t
  have hcol : collapse (cleanTitle t) = cleanTitle t := collapse_of_wf _ hwf
  have hstrip : stripPfxs (cleanTitle t) = cleanTitle t := by
    unfold stripPfxs
    rw [stripPfx1_no _ _ hp1, stripPfx1_no _ _ hp2, stripPfx1_no _ _ hp3]
  conv_lhs => rw [cleanTitle]
  rw [if_neg hne]
  simp only []
  rw [hcol, hstrip, if_neg (not_lt.mpr hl), if_neg hne]

/-- C4 witness: a title with redundant whitespace; its cleaned form has
no strip prefix and is short, so re-cleaning fixes it. -/
theorem cleanTitle_idem_witness :
    cleanTitle (cleanTitle "  Hello   World ".toList) =
      cleanTitle "  Hello   World ".toList :=
  cleanTitle_idem "  Hello   World ".toList (by decide) (by decide)
    (by decide) (by decide)

end PDFOutline
